import Mathlib

/-!
Verification of the `stream.py` lazy pipeline library (`src/stream.py`)
against its natural-language specification.

The embedding below translates the relevant parts of the source into
Lean definitions:

* a lazy Python iterator is modelled as `PyIter α := Nat → Option α`
  (the result of the k-th `next()` call; `none` models `StopIteration`);
* finite materialized sequences are Lean lists;
* generator loops (`takei.__call__`, `dropi.__call__`) become fuelled
  state machines whose second component records whether the generator
  has terminated (`true`) or merely ran out of fuel (`false`);
* Python truthiness tests on optional slice bounds and on `initval`
  are modelled explicitly (`None` and `0` are falsy).
-/

namespace StreamPy

/-- A Python iterator: the value produced by the k-th `next()` call,
`none` modelling `StopIteration`. -/
def PyIter (α : Type) : Type := Nat → Option α

/-- The iterator over a finite list (`iter(list)`). -/
def fromList (xs : List α) : PyIter α := fun n => xs[n]?

/-- An iterator that never raises `StopIteration` (an infinite upstream). -/
def Total (f : PyIter α) : Prop := ∀ n, (f n).isSome

/-! ### Connection protocol (`Stream.pipe`, `Stream.__pipe__`) for
functional filters.

`map.__call__` is `itertools.imap(function, inpipe)` and
`filter.__call__` is `itertools.ifilter(function, inpipe)`; on a finite
materialized upstream these produce `List.map` / `List.filter`.
`Stream.__pipe__(inpipe)` sets `self.iterator = self.__call__(inpipe)`,
so chaining `S >> A >> B` threads the cursor left-to-right. -/

/-- A map or filter stage (`map(f)` / `filter(p)` in the source). -/
inductive MF (α : Type) where
  | mapMF (f : α → α)
  | filtMF (p : α → Bool)

/-- The transform a map/filter stage applies to a materialized upstream:
`map.__call__` is `imap`, `filter.__call__` is `ifilter`. -/
def transformMF : MF α → List α → List α
  | .mapMF f, xs => xs.map f
  | .filtMF p, xs => xs.filter p

/-- `S >> st1 >> st2 >> ...`: each `>>` calls `Stream.pipe`, which sets the
downstream stage's cursor to its transform of the incoming cursor and hands
that stage on as the next upstream. -/
def pipeMF (s : List α) (stages : List (MF α)) : List α :=
  stages.foldl (fun cur st => transformMF st cur) s

/-! ### Connection side effects (`Stream.__pipe__`, `take.__call__`).

A `Stream` object holds an iterator; we model its state as the underlying
element sequence plus a cursor position.  Connecting a downstream stage may
pull from the upstream iterator (advancing its cursor) before returning. -/

/-- Python truthiness / sign tests on an optional slice bound.
`negative = lambda x: x and x<0`: `None` and `0` are falsy. -/
def pyNegative : Option Int → Bool
  | none => false
  | some v => decide (v < 0)

/-- Python falsiness of an optional slice bound: `None` and `0` are falsy,
as tested by `self.slice.start or self.slice.stop` etc. -/
def pyFalsy : Option Int → Bool
  | none => true
  | some v => decide (v = 0)

/-- A slice object `slice(start, stop, step)`. -/
structure SliceSpec where
  start : Option Int
  stop : Option Int
  step : Option Int
deriving DecidableEq, Repr

/-- The condition under which `take.__call__` forces all evaluation
(`list(inpipe)`), translated clause by clause from the source:
`negative(stop) or negative(start) or not (start or stop)
 or (not start and negative(step)) or (not stop and not negative(step))`. -/
def fullMaterialize (sl : SliceSpec) : Bool :=
  pyNegative sl.stop || pyNegative sl.start
    || (pyFalsy sl.start && pyFalsy sl.stop)
    || (pyFalsy sl.start && pyNegative sl.step)
    || (pyFalsy sl.stop && !pyNegative sl.step)

/-- The forward pull bound used in the bounded branch of `take.__call__`:
`stop = self.slice.start if negative(step) else self.slice.stop`,
then `xrange(stop)` (empty for a missing or negative value). -/
def forwardBound (sl : SliceSpec) : Nat :=
  match (if pyNegative sl.step then sl.start else sl.stop) with
  | none => 0
  | some v => v.toNat

/-- `[next(i) for _ in xrange(n)]` with `except StopIteration: pass`,
starting at position `c` of the upstream iterator. -/
def boundedPull (f : PyIter α) : Nat → Nat → List α
  | 0, _ => []
  | n + 1, c =>
    match f c with
    | none => []
    | some a => a :: boundedPull f n (c + 1)

/-- The number of `next()` calls that return a value (elements consumed from
the upstream) during `[next(i) for _ in xrange(n)]`. -/
def boundedPullCount (f : PyIter α) : Nat → Nat → Nat
  | 0, _ => 0
  | n + 1, c =>
    match f c with
    | none => 0
    | some _ => 1 + boundedPullCount f n (c + 1)

/-- The `cache` attribute slot after the two evaluation branches of
`take.__call__`, for a finite upstream `xs` and a prior slot content
`prior` (`none` models a never-assigned slot).  The force-all branch
`self.cache = list(inpipe)` always assigns (`list` absorbs the upstream's
`StopIteration`).  In the bounded branch the assignment
`self.cache = [next(i) for _ in xrange(stop)]` happens only when every
`next(i)` succeeds: a `StopIteration` raised inside the list comprehension
propagates out of the expression to the surrounding
`except StopIteration: pass`, the partially built list is discarded, and
the slot keeps its prior content. -/
def takeSlot (sl : SliceSpec) (prior : Option (List α)) (xs : List α) :
    Option (List α) :=
  if fullMaterialize sl then some xs
  else if forwardBound sl ≤ xs.length then
    some (boundedPull (fromList xs) (forwardBound sl) 0)
  else prior

/-- `self.cache` after the evaluation branches of `take.__call__` for a
`take` object, whose `__init__` set `self.cache = []`: on early upstream
exhaustion in the bounded branch the discarded comprehension leaves that
initial `[]` in place. -/
def takeCache (sl : SliceSpec) (xs : List α) : List α :=
  (takeSlot sl (some []) xs).getD []

/-! ### Python slice application (`self.cache[self.slice]`),
following CPython `PySlice_Unpack` / `PySlice_AdjustIndices`. -/

/-- The effective step of a slice (`None` defaults to 1). -/
def sliceStep (sl : SliceSpec) : Int := sl.step.getD 1

/-- Clamp an explicit slice bound into `[lower, upper]`, counting negative
values from the end of a length-`L` sequence. -/
def adjustIndex (L : Nat) (lower upper v : Int) : Int :=
  if v < 0 then max (v + L) lower else min v upper

/-- The list of positions selected by a slice over a length-`L` sequence
(only meaningful for a non-zero step). -/
def pySliceIdx (L : Nat) (sl : SliceSpec) : List Nat :=
  let s := sliceStep sl
  let lower : Int := if s < 0 then -1 else 0
  let upper : Int := if s < 0 then (L : Int) - 1 else (L : Int)
  let start := match sl.start with
    | none => if s < 0 then upper else lower
    | some v => adjustIndex L lower upper v
  let stop := match sl.stop with
    | none => if s < 0 then lower else upper
    | some v => adjustIndex L lower upper v
  let cnt : Nat :=
    if s > 0 then (if start < stop then ((stop - start + s - 1) / s).toNat else 0)
    else (if stop < start then ((start - stop + (-s) - 1) / (-s)).toNat else 0)
  (List.range cnt).map (fun (k : Nat) => (start + (k : Int) * s).toNat)

/-- `xs[sl]` for a Python list `xs`; `none` models the `ValueError`
raised on a zero step. -/
def pySlice (xs : List α) (sl : SliceSpec) : Option (List α) :=
  if sliceStep sl = 0 then none
  else some ((pySliceIdx xs.length sl).filterMap (fun i => xs[i]?))

/-- A `Stream` object's state: its underlying sequence and the cursor
position of its iterator. -/
structure SObj (α : Type) where
  elems : List α
  pos : Nat
deriving DecidableEq, Repr

/-- The values the object's iterator has yet to produce. -/
def SObj.remaining (u : SObj α) : List α := u.elems.drop u.pos

/-- The downstream stages whose connection effects we model: the lazy
functional filters `map(f)` and `filter(p)`, and the eager windowed
selector `take(...)`. -/
inductive StageK (α : Type) where
  | mapK (f : α → α)
  | filterK (p : α → Bool)
  | takeK (sl : SliceSpec)

/-- How many upstream elements are consumed at connection time.
`map.__call__`/`filter.__call__` build lazy `itertools` iterators and pull
nothing; `take.__call__` runs either `list(inpipe)` (everything) or the
bounded prefix pull before returning. -/
def connectPulls : StageK α → SObj α → Nat
  | .mapK _, _ => 0
  | .filterK _, _ => 0
  | .takeK sl, u =>
    if fullMaterialize sl then u.remaining.length
    else min (forwardBound sl) u.remaining.length

/-- The upstream object's state after the connection: its cursor has
advanced past every element consumed at connection time. -/
def connectUp (k : StageK α) (u : SObj α) : SObj α :=
  { u with pos := u.pos + connectPulls k u }

/-- The sequence stored into the downstream stage's cursor by
`self.iterator = self.__call__(inpipe)` (as a semantic value). -/
def downCursor : StageK α → SObj α → List α
  | .mapK f, u => u.remaining.map f
  | .filterK p, u => u.remaining.filter p
  | .takeK sl, u => (pySlice (takeCache sl u.remaining) sl).getD []

/-! ### `reduce` (scan, `reduce.__call__`). -/

/-- The generator body of `reduce.__call__` once `accumulated` is set:
`while 1: yield accumulated; val = next(i); accumulated = function(accumulated, val)`.
The trailing `next(i)` raising `StopIteration` ends the generator after the
final yield. -/
def scanEmit (f : α → α → α) : α → List α → List α
  | acc, [] => [acc]
  | acc, v :: rest => acc :: scanEmit f (f acc v) rest

/-- The `else` branch `accumulated = next(i)`: an empty upstream raises
before anything is emitted. -/
def scanNoInit (f : α → α → α) : List α → List α
  | [] => []
  | x :: rest => scanEmit f x rest

/-- `reduce.__call__` on a finite upstream.  `tr` is Python truthiness for
the element type; the source tests `if self.initval:`, so `None` and any
falsy value (e.g. `0`) select the no-initial-value branch. -/
def reduceCall (tr : α → Bool) (f : α → α → α) (initval : Option α)
    (xs : List α) : List α :=
  match initval with
  | some v => if tr v then scanEmit f v xs else scanNoInit f xs
  | none => scanNoInit f xs

/-- Python truthiness for integers. -/
def intTruthy (v : Int) : Bool := decide (v ≠ 0)

/-! ### `tee` (`tee.__pipe__` / `itertools.tee`).

`itertools.tee(inpipe)` yields two iterators over the same underlying
sequence, each with its own cursor; values are buffered until both
cursors have passed them.  `tee.__pipe__` hands one branch to the side
pipeline and leaves the other as the main line's iterator. -/

/-- The shared state of the two branches produced by `itertools.tee`:
the source sequence and one cursor per branch (`i` for the main line,
`j` for the branch pipeline). -/
structure TeeState (α : Type) where
  src : List α
  i : Nat
  j : Nat
deriving DecidableEq, Repr

/-- The state right after `tee.__pipe__` duplicates the upstream. -/
def teeOf (xs : List α) : TeeState α := ⟨xs, 0, 0⟩

/-- The next value the main line would produce. -/
def nextMain (t : TeeState α) : Option α := t.src.get? t.i

/-- The next value the branch would produce. -/
def nextBranch (t : TeeState α) : Option α := t.src.get? t.j

/-- Pull one value from the main line. -/
def pullMain (t : TeeState α) : TeeState α :=
  match t.src.get? t.i with
  | some _ => { t with i := t.i + 1 }
  | none => t

/-- Pull one value from the branch. -/
def pullBranch (t : TeeState α) : TeeState α :=
  match t.src.get? t.j with
  | some _ => { t with j := t.j + 1 }
  | none => t

/-- Pull `n` values from the main line. -/
def pullMainN : Nat → TeeState α → TeeState α
  | 0, t => t
  | n + 1, t => pullMainN n (pullMain t)

/-- Pull `n` values from the branch. -/
def pullBranchN : Nat → TeeState α → TeeState α
  | 0, t => t
  | n + 1, t => pullBranchN n (pullBranch t)

/-- Exhausting the main line from state `t` yields these values. -/
def collectMain (t : TeeState α) : List α := t.src.drop t.i

/-- Exhausting the branch from state `t` yields these values. -/
def collectBranch (t : TeeState α) : List α := t.src.drop t.j

/-! ### `takei` / `dropi` (`takei.__call__`, `dropi.__call__`).

Both generators are translated as fuelled state machines over a `PyIter`
main input: one unit of fuel per iteration of the `while 1` loop.  The
second component of the result records whether the generator has
terminated (`true`: `StopIteration` propagated out of the generator body,
or, for `dropi`, the main sequence exhausted) or the fuel merely ran out
(`false`: the generator was still running). -/

/-- `try_next` in `dropi.__call__`: pull the next index, switching to the
exhausted state (`idx = -1, exhausted = True`) when the index stream ends. -/
def tryNext : List Int → Int × Bool × List Int
  | [] => (-1, true, [])
  | h :: t => (h, false, t)

/-- The skip loop `while not exhausted and idx <= old_idx:
idx, exhausted = try_next()` of `dropi.__call__`. -/
def skipBad (old : Int) : Int → Bool → List Int → Int × Bool × List Int
  | idx, exh, [] => if exh || decide (old < idx) then (idx, exh, []) else (-1, true, [])
  | idx, exh, h :: t =>
    if exh || decide (old < idx) then (idx, exh, h :: t) else skipBad old h false t

/-- One fuelled run of the generator loop of `dropi.__call__`: pull `elem`
from the main input (ending on exhaustion), skip stale indices, yield the
element unless its position equals the pending index. -/
def dropiLoop (f : PyIter α) : Nat → Int → Int → Bool → List Int → Nat → List α × Bool
  | 0, _, _, _, _, _ => ([], false)
  | fuel + 1, old, idx, exh, rest, c =>
    match f c with
    | none => ([], true)
    | some elem =>
      match skipBad old idx exh rest with
      | (idx1, exh1, rest1) =>
        if (c : Int) ≠ idx1 then
          (elem :: (dropiLoop f fuel old idx1 exh1 rest1 (c + 1)).1,
            (dropiLoop f fuel old idx1 exh1 rest1 (c + 1)).2)
        else if exh1 = false then
          match tryNext rest1 with
          | (idx2, exh2, rest2) => dropiLoop f fuel idx1 idx2 exh2 rest2 (c + 1)
        else
          dropiLoop f fuel old idx1 exh1 rest1 (c + 1)

/-- `dropi(indices).__call__(inpipe)`: initialize `old_idx = -1` and pull
the first index, then run the loop. -/
def dropiCall (ds : List Int) (f : PyIter α) (fuel : Nat) : List α × Bool :=
  match tryNext ds with
  | (idx, exh, rest) => dropiLoop f fuel (-1) idx exh rest 0

/-- One fuelled run of the generator loop of `takei.__call__`: pull `elem`
from the main input, skip indices `<= old_idx` (a failing pull from the
index stream propagates `StopIteration` and ends the generator), yield the
element when its position equals the pending index. -/
def takeiLoop (f : PyIter α) : Nat → Int → List Int → Nat → List α × Bool
  | 0, _, _, _ => ([], false)
  | fuel + 1, old, pending, c =>
    match f c with
    | none => ([], true)
    | some elem =>
      match pending.dropWhile (fun x => decide (x ≤ old)) with
      | [] => ([], true)
      | idx :: rest =>
        if (c : Int) = idx then
          match rest with
          | [] => ([elem], true)
          | r :: rs =>
            (elem :: (takeiLoop f fuel idx (r :: rs) (c + 1)).1,
              (takeiLoop f fuel idx (r :: rs) (c + 1)).2)
        else
          takeiLoop f fuel old (idx :: rest) (c + 1)

/-- `takei(indices).__call__(inpipe)`: the initial
`idx = next(self.indexiter)` ends the generator at once (before any main
pull) when the index stream is empty. -/
def takeiCall (ds : List Int) (f : PyIter α) (fuel : Nat) : List α × Bool :=
  match ds with
  | [] => ([], true)
  | _ :: _ => takeiLoop f fuel (-1) ds 0

/-- An upper bound on the index values of a finite index stream. -/
def maxIdx (ds : List Int) : Int := ds.foldr max 0

/-- Enough fuel for `takei` to reach its terminated state over any
infinite main input. -/
def takeiFuel (ds : List Int) : Nat := (maxIdx ds).toNat + 2

/-! ### `flatten` (`flattener.__call__`).

Stream elements are modelled by `Elem`: atomic numbers, text values, and
iterable containers.  In the source's Python 2, `hasattr(e, "__iter__")`
is false for `str`/`unicode` (text is iterable only via `__getitem__`),
and the `isinstance(e, basestring)` guard additionally excludes text. -/

inductive Elem where
  | int (n : Int)
  | str (s : String)
  | coll (xs : List Elem)

/-- `hasattr(e, "__iter__")` in Python 2: containers define it, text and
numbers do not. -/
def hasIterAttr : Elem → Bool
  | .coll _ => true
  | _ => false

/-- `isinstance(e, basestring)`. -/
def isBasestring : Elem → Bool
  | .str _ => true
  | _ => false

/-- The descend test of `flattener.__call__`:
`hasattr(e, "__iter__") and not isinstance(e, basestring)`. -/
def shouldDescend (e : Elem) : Bool := hasIterAttr e && !isBasestring e

/-- `iter(e)`: the elements a descent would iterate over.  Iterating a
text value yields its one-character text values — which is exactly what
the descend test prevents. -/
def children : Elem → List Elem
  | .coll xs => xs
  | .str s => s.toList.map (fun ch => .str (String.mk [ch]))
  | .int _ => []

/-- The LIFO-stack loop of `flattener.__call__`: `cur` is the current
iterator, `stack` the saved outer iterators; descend into descendable
elements, emit the rest, pop on exhaustion, stop when the stack empties. -/
def flattenGo : List Elem → List (List Elem) → List Elem
  | [], [] => []
  | [], k :: stack => flattenGo k stack
  | e :: rest, stack =>
    if h : shouldDescend e = true then flattenGo (children e) (rest :: stack)
    else e :: flattenGo rest stack
termination_by cur stack => sizeOf cur + sizeOf stack
decreasing_by
  · simp only [List.cons.sizeOf_spec, List.nil.sizeOf_spec]
    omega
  · cases e with
    | int n => simp [shouldDescend, hasIterAttr, isBasestring] at h
    | str s => simp [shouldDescend, hasIterAttr, isBasestring] at h
    | coll l =>
      simp only [children, List.cons.sizeOf_spec, Elem.coll.sizeOf_spec]
      omega
  · simp only [List.cons.sizeOf_spec]
    have he : 0 < sizeOf e := by
      cases e <;> simp_arith
    omega

/-- `inpipe >> flatten` on a finite materialized input. -/
def flattenCall (xs : List Elem) : List Elem := flattenGo xs []

/-- Modelled from the spec: the recursive depth-first flattening that
emits atomic numbers and whole text values and recurses into containers
only — the reference transform `flattenCall` is compared against.  A text
value is returned whole, never split into characters. -/
def specFlatten : Elem → List Elem
  | .int n => [.int n]
  | .str s => [.str s]
  | .coll xs => (xs.attach.map (fun x => specFlatten x.1)).flatten
termination_by e => sizeOf e
decreasing_by
  have hm := List.sizeOf_lt_of_mem x.2
  simp only [Elem.coll.sizeOf_spec]
  omega

/-! ### `itemgetter` (`item[N]`, `itemgetter.__getitem__` /
`itemgetter.__pipe__`). -/

/-- The slice built by `itemgetter.__getitem__` for a single integer index:
`-1` becomes `slice(None)`, any other `N` becomes `slice(N + 1)`. -/
def itemSlice (N : Int) : SliceSpec :=
  if N = -1 then ⟨none, none, none⟩ else ⟨none, some (N + 1), none⟩

/-- The error kinds `itemgetter.__pipe__` can raise: `attributeError` for
reading the never-assigned `cache` slot, `indexError` for `cache[-1]` on
an empty cache, `valueError` for a zero slice step. -/
inductive PyErr where
  | indexError
  | attributeError
  | valueError
deriving DecidableEq, Repr

/-- `inpipe >> item[N]` for a finite upstream: run `take.__call__`, then
return `self.cache[-1]`.  `itemgetter.__init__` sets only `iterator` and
`get1`, so its `cache` slot starts unassigned (`prior = none`): when the
bounded pull exhausts early, the discarded comprehension leaves the slot
unassigned and the read in `self.cache = self.cache[self.slice]` raises
`AttributeError`.  On an assigned cache, `cache[-1]` raises `IndexError`
only when the cache is empty. -/
def itemPipe (N : Int) (xs : List α) : Except PyErr α :=
  match takeSlot (itemSlice N) none xs with
  | none => Except.error PyErr.attributeError
  | some cache =>
    match pySlice cache (itemSlice N) with
    | none => Except.error PyErr.valueError
    | some cache2 =>
      match cache2.getLast? with
      | none => Except.error PyErr.indexError
      | some v => Except.ok v

/-! ### Helper lemmas. -/

/-- The C3 window conditions, stated as in the claim: neither bound
negative, not both bounds absent, start present or step non-negative,
stop present or step negative.  "Absent" is Python-falsy (`None` or `0`),
exactly as the source tests the bounds (`start or stop`, `not start`,
`not stop`). -/
def claimCondsC3 (sl : SliceSpec) : Bool :=
  !pyNegative sl.start && !pyNegative sl.stop
    && !(pyFalsy sl.start && pyFalsy sl.stop)
    && (!pyFalsy sl.start || !pyNegative sl.step)
    && (!pyFalsy sl.stop || pyNegative sl.step)

theorem claimCondsC3_eq_not_full (sl : SliceSpec) :
    claimCondsC3 sl = !fullMaterialize sl := by
  unfold claimCondsC3 fullMaterialize
  cases pyNegative sl.stop <;> cases pyNegative sl.start <;>
    cases pyFalsy sl.start <;> cases pyFalsy sl.stop <;>
    cases pyNegative sl.step <;> rfl

theorem boundedPullCount_le (f : PyIter α) :
    ∀ n c, boundedPullCount f n c ≤ n := by
  intro n
  induction n with
  | zero => intro c; exact Nat.le_refl 0
  | succ n ih =>
    intro c
    unfold boundedPullCount
    cases f c with
    | none => exact Nat.zero_le _
    | some a => simpa [Nat.add_comm] using Nat.succ_le_succ (ih (c + 1))

theorem boundedPull_fromList (xs : List α) :
    ∀ n c, boundedPull (fromList xs) n c = (xs.drop c).take n := by
  intro n
  induction n with
  | zero => intro c; rfl
  | succ n ih =>
    intro c
    unfold boundedPull
    cases h : fromList xs c with
    | none =>
      have hlen : xs.length ≤ c := by
        by_contra hc
        push_neg at hc
        simp [fromList, List.getElem?_eq_getElem hc] at h
      simp [List.drop_eq_nil_of_le hlen]
    | some a =>
      have hc : c < xs.length := by
        by_contra hc
        push_neg at hc
        simp [fromList, List.getElem?_eq_none hc] at h
      have ha : xs[c] = a := by
        have := h
        simp only [fromList, List.getElem?_eq_getElem hc, Option.some.injEq] at this
        exact this
      rw [List.drop_eq_getElem_cons hc, ih (c + 1), List.take_succ_cons, ha]

theorem range_filterMap_getElem (xs : List α) :
    ∀ n, (List.range n).filterMap (fun i => xs[i]?) = xs.take n := by
  intro n
  induction n with
  | zero => rfl
  | succ n ih =>
    rw [List.range_succ, List.filterMap_append, ih, List.take_succ]
    cases h : xs[n]? <;> simp [h]

theorem scanEmit_length (f : α → α → α) (a : α) (xs : List α) :
    (scanEmit f a xs).length = xs.length + 1 := by
  induction xs generalizing a with
  | nil => rfl
  | cons x rest ih => simp [scanEmit, ih]

theorem scanNoInit_length (f : α → α → α) (xs : List α) :
    (scanNoInit f xs).length = xs.length := by
  cases xs with
  | nil => rfl
  | cons x rest => simp [scanNoInit, scanEmit_length]

theorem dropWhile_head_false (p : β → Bool) :
    ∀ (l : List β) (x : β) (t : List β), l.dropWhile p = x :: t → p x = false := by
  intro l
  induction l with
  | nil =>
    intro x t h
    simp [List.dropWhile] at h
  | cons a l ih =>
    intro x t h
    rw [List.dropWhile_cons] at h
    by_cases hpa : p a = true
    · rw [if_pos hpa] at h
      exact ih x t h
    · rw [if_neg hpa] at h
      injection h with h1 _
      subst h1
      simp only [Bool.not_eq_true] at hpa
      exact hpa

theorem le_maxIdx (ds : List Int) : ∀ x ∈ ds, x ≤ maxIdx ds := by
  induction ds with
  | nil => intro x hx; simp at hx
  | cons d t ih =>
    intro x hx
    rcases List.mem_cons.mp hx with rfl | hx'
    · exact le_max_left _ _
    · exact le_trans (ih x hx') (le_max_right _ _)

/-- Over an infinite main input, `takei` reaches its terminated state as
soon as the position counter passes every value the index stream can still
supply: the pull from the exhausted index stream raises `StopIteration`
inside the generator and ends the output. -/
theorem takeiLoop_done (f : PyIter α) (hf : Total f) :
    ∀ (fuel : Nat) (old : Int) (pending : List Int) (c : Nat),
      1 ≤ fuel →
      (∀ x ∈ pending, x + 2 ≤ (c : Int) + (fuel : Int)) →
      (∀ h, (pending.dropWhile (fun x => decide (x ≤ old))).head? = some h →
        (c : Int) ≤ h) →
      (takeiLoop f fuel old pending c).2 = true := by
  intro fuel
  induction fuel with
  | zero => intro old pending c hfuel _ _; omega
  | succ n ih =>
    intro old pending c _ h1 h3
    obtain ⟨v, hv⟩ : ∃ v, f c = some v := by
      cases hfc : f c with
      | none =>
        have ht := hf c
        rw [hfc] at ht
        simp at ht
      | some a => exact ⟨a, rfl⟩
    cases hdw : pending.dropWhile (fun x => decide (x ≤ old)) with
    | nil => simp [takeiLoop, hv, hdw]
    | cons idx rest =>
      have hsub : List.Sublist (idx :: rest) pending := hdw ▸ List.dropWhile_sublist _
      have hmem : idx ∈ pending := hsub.subset (List.mem_cons_self _ _)
      have hcle : (c : Int) ≤ idx := h3 idx (by rw [hdw]; rfl)
      have hnotle : decide (idx ≤ old) = false :=
        dropWhile_head_false _ pending idx rest hdw
      have hidxold : old < idx := by simpa using hnotle
      by_cases hc : (c : Int) = idx
      · cases rest with
        | nil => simp [takeiLoop, hv, hdw, hc]
        | cons r rs =>
          have hn1 : 1 ≤ n := by
            have := h1 idx hmem
            omega
          simp only [takeiLoop, hv, hdw, if_pos hc]
          exact ih idx (r :: rs) (c + 1) hn1
            (by
              intro x hx
              have hx' : x ∈ pending := hsub.subset (List.mem_cons_of_mem _ hx)
              have := h1 x hx'
              push_cast at this ⊢
              omega)
            (by
              intro h hh
              cases hdw2 : (r :: rs).dropWhile (fun x => decide (x ≤ idx)) with
              | nil => rw [hdw2] at hh; simp at hh
              | cons y t =>
                rw [hdw2, List.head?_cons] at hh
                injection hh with hy
                subst hy
                have hyle : decide (y ≤ idx) = false :=
                  dropWhile_head_false _ (r :: rs) y t hdw2
                have : idx < y := by simpa using hyle
                push_cast
                omega)
      · have hclt : (c : Int) < idx := lt_of_le_of_ne hcle hc
        have hn1 : 1 ≤ n := by
          have := h1 idx hmem
          omega
        simp only [takeiLoop, hv, hdw, if_neg hc]
        exact ih old (idx :: rest) (c + 1) hn1
          (by
            intro x hx
            have := h1 x (hsub.subset hx)
            push_cast at this ⊢
            omega)
          (by
            intro h hh
            rw [List.dropWhile_cons, hnotle, if_neg (by simp),
              List.head?_cons] at hh
            injection hh with hy
            subst hy
            push_cast
            omega)

theorem takeiCall_done (ds : List Int) (f : PyIter α) (hf : Total f) :
    (takeiCall ds f (takeiFuel ds)).2 = true := by
  cases ds with
  | nil => rfl
  | cons d t =>
    unfold takeiCall
    apply takeiLoop_done f hf
    · unfold takeiFuel
      omega
    · intro x hx
      have h1 := le_maxIdx (d :: t) x hx
      have h2 := Int.self_le_toNat (maxIdx (d :: t))
      unfold takeiFuel
      push_cast
      omega
    · intro h hh
      cases hdw : (d :: t).dropWhile (fun x => decide (x ≤ (-1 : Int))) with
      | nil => rw [hdw] at hh; simp at hh
      | cons y u =>
        rw [hdw, List.head?_cons] at hh
        injection hh with hy
        subst hy
        have hd := dropWhile_head_false _ (d :: t) _ u hdw
        simp only [decide_eq_false_iff_not, not_le] at hd
        push_cast
        omega

/-- The `dropi` generator never terminates on its own: with a main input
that never exhausts, no amount of fuel brings it to the terminated
state. -/
theorem dropiLoop_not_done (f : PyIter α) (hf : Total f) :
    ∀ (fuel : Nat) (old idx : Int) (exh : Bool) (rest : List Int) (c : Nat),
      (dropiLoop f fuel old idx exh rest c).2 = false := by
  intro fuel
  induction fuel with
  | zero => intros; rfl
  | succ n ih =>
    intro old idx exh rest c
    obtain ⟨v, hv⟩ : ∃ v, f c = some v := by
      cases hfc : f c with
      | none =>
        have ht := hf c
        rw [hfc] at ht
        simp at ht
      | some a => exact ⟨a, rfl⟩
    rcases hsb : skipBad old idx exh rest with ⟨idx1, exh1, rest1⟩
    simp only [dropiLoop, hv, hsb]
    by_cases hc : (c : Int) ≠ idx1
    · rw [if_pos hc]
      exact ih old idx1 exh1 rest1 (c + 1)
    · rw [if_neg hc]
      by_cases he1 : exh1 = false
      · rw [if_pos he1]
        rcases htn : tryNext rest1 with ⟨idx2, exh2, rest2⟩
        simp only [htn]
        exact ih idx1 idx2 exh2 rest2 (c + 1)
      · rw [if_neg he1]
        exact ih old idx1 exh1 rest1 (c + 1)

/-- Once the index stream is exhausted (`idx = -1, exhausted = True`),
`dropi` passes every remaining main element through unchanged, terminating
exactly when the main input exhausts. -/
theorem dropiLoop_passthrough (f : PyIter α) :
    ∀ (n c : Nat) (old : Int),
      (∀ k, k < n → (f (c + k)).isSome) → f (c + n) = none →
      dropiLoop f (n + 1) old (-1) true [] c =
        ((List.range n).filterMap (fun k => f (c + k)), true) := by
  intro n
  induction n with
  | zero =>
    intro c old _ hn
    rw [Nat.add_zero] at hn
    simp [dropiLoop, hn]
  | succ n ih =>
    intro c old hs hn
    obtain ⟨v, hv⟩ : ∃ v, f c = some v := by
      cases hfc : f c with
      | none =>
        have ht := hs 0 (Nat.succ_pos n)
        rw [Nat.add_zero, hfc] at ht
        simp at ht
      | some a => exact ⟨a, rfl⟩
    have hskip : skipBad old (-1 : Int) true [] = (-1, true, []) := by
      simp [skipBad]
    have hne : ((c : Int) ≠ (-1 : Int)) := by omega
    have hrec := ih (c + 1) old
      (by
        intro k hk
        have := hs (k + 1) (by omega)
        rw [show c + (k + 1) = c + 1 + k by omega] at this
        exact this)
      (by
        rw [show c + 1 + n = c + (n + 1) by omega]
        exact hn)
    obtain ⟨m, hm⟩ : ∃ m, m = n + 1 := ⟨n + 1, rfl⟩
    rw [← hm] at hrec ⊢
    simp only [dropiLoop, hv, hskip, if_pos hne, hrec]
    rw [hm, List.range_succ_eq_map]
    simp only [List.filterMap_cons, Nat.add_zero, hv, List.filterMap_map]
    have harg : ((fun k : Nat => f (c + k)) ∘ Nat.succ) =
        fun k : Nat => f (c + 1 + k) := by
      funext k
      simp only [Function.comp]
      congr 1
      omega
    rw [harg]

theorem specFlatten_coll (l : List Elem) :
    specFlatten (.coll l) = (l.map specFlatten).flatten := by
  rw [specFlatten]
  congr 1
  exact List.attach_map_coe l specFlatten

theorem specFlatten_of_not_descend (e : Elem) (h : shouldDescend e = false) :
    specFlatten e = [e] := by
  cases e with
  | int n => rw [specFlatten]
  | str s => rw [specFlatten]
  | coll l => simp [shouldDescend, hasIterAttr, isBasestring] at h

/-- Every element the spec-side flattening emits is non-descendable
(an atomic number or a whole text value). -/
theorem specFlatten_not_descend :
    ∀ (e : Elem), ∀ x ∈ specFlatten e, shouldDescend x = false := by
  have key : ∀ (n : Nat) (e : Elem), sizeOf e ≤ n →
      ∀ x ∈ specFlatten e, shouldDescend x = false := by
    intro n
    induction n with
    | zero =>
      intro e he
      cases e <;> simp_arith at he
    | succ n ih =>
      intro e he x hx
      cases e with
      | int m =>
        rw [specFlatten] at hx
        rw [List.mem_singleton] at hx
        subst hx
        rfl
      | str s =>
        rw [specFlatten] at hx
        rw [List.mem_singleton] at hx
        subst hx
        rfl
      | coll xs =>
        rw [specFlatten_coll, List.mem_flatten] at hx
        obtain ⟨l, hl, hxl⟩ := hx
        rw [List.mem_map] at hl
        obtain ⟨y, hy, rfl⟩ := hl
        refine ih y ?_ x hxl
        have hsy := List.sizeOf_lt_of_mem hy
        simp only [Elem.coll.sizeOf_spec] at he
        omega
  intro e
  exact key (sizeOf e) e (Nat.le_refl _)

/-- A sequence of non-descendable elements is a fixed point of the
spec-side flattening. -/
theorem flatten_fixed (xs : List Elem)
    (h : ∀ x ∈ xs, shouldDescend x = false) :
    (xs.map specFlatten).flatten = xs := by
  induction xs with
  | nil => rfl
  | cons e rest ih =>
    rw [List.map_cons, List.flatten_cons,
      specFlatten_of_not_descend e (h e (List.mem_cons_self _ _)),
      ih (fun x hx => h x (List.mem_cons_of_mem _ hx))]
    rfl

/-- The stack machine of `flattener.__call__` computes the spec-side
depth-first flattening of the current iterator followed by the saved outer
iterators. -/
theorem flattenGo_eq :
    ∀ (cur : List Elem) (stack : List (List Elem)),
      flattenGo cur stack =
        (cur.map specFlatten).flatten ++
          (stack.map (fun k => (k.map specFlatten).flatten)).flatten := by
  intro cur stack
  induction cur, stack using flattenGo.induct with
  | case1 => simp [flattenGo]
  | case2 k stack ih =>
    rw [flattenGo, ih]
    simp
  | case3 e rest stack h ih =>
    obtain ⟨l, rfl⟩ : ∃ l, e = .coll l := by
      cases e with
      | int n => simp [shouldDescend, hasIterAttr, isBasestring] at h
      | str s => simp [shouldDescend, hasIterAttr, isBasestring] at h
      | coll l => exact ⟨l, rfl⟩
    rw [flattenGo, dif_pos h, ih]
    simp [children, specFlatten_coll, List.append_assoc]
  | case4 e rest stack h ih =>
    rw [flattenGo, dif_neg h, ih]
    have he : specFlatten e = [e] :=
      specFlatten_of_not_descend e (by simpa using h)
    simp [he]

theorem pullBranchN_src_i (n : Nat) (t : TeeState α) :
    (pullBranchN n t).src = t.src ∧ (pullBranchN n t).i = t.i := by
  induction n generalizing t with
  | zero => exact ⟨rfl, rfl⟩
  | succ n ih =>
    have h := ih (pullBranch t)
    have hb : (pullBranch t).src = t.src ∧ (pullBranch t).i = t.i := by
      unfold pullBranch
      cases t.src.get? t.j <;> simp
    exact ⟨h.1.trans hb.1, h.2.trans hb.2⟩

/-- Applying a slice with absent start and step and a non-negative stop `m`
selects the first `m` elements. -/
theorem pySlice_stopOnly (xs : List α) (m : Int) (hm : 0 ≤ m) :
    pySlice xs ⟨none, some m, none⟩ = some (xs.take m.toNat) := by
  have h0 : ¬ m < 0 := not_lt.mpr hm
  have hadj : adjustIndex xs.length 0 (xs.length : Int) m = min m (xs.length : Int) := by
    unfold adjustIndex
    rw [if_neg h0]
  have hstep : sliceStep ⟨none, some m, none⟩ = 1 := rfl
  have hidx : pySliceIdx xs.length ⟨none, some m, none⟩ =
      (List.range (if 0 < adjustIndex xs.length 0 (xs.length : Int) m then
          ((adjustIndex xs.length 0 (xs.length : Int) m - 0 + 1 - 1) / 1).toNat
        else 0)).map (fun (k : Nat) => ((0 : Int) + (k : Int) * 1).toNat) := rfl
  have hmap : (fun k : Nat => ((0 : Int) + (k : Int) * 1).toNat) = fun k : Nat => k := by
    funext k
    omega
  unfold pySlice
  rw [hstep, if_neg (by norm_num), hidx, hadj, hmap, List.map_id']
  have hds : (min m (xs.length : Int) - 0 + 1 - 1) / 1 = min m (xs.length : Int) := by
    omega
  rw [hds]
  by_cases hpos : 0 < min m (xs.length : Int)
  · rw [if_pos hpos, range_filterMap_getElem]
    rcases le_total m (xs.length : Int) with hml | hlm
    · rw [min_eq_left hml]
    · rw [min_eq_right hlm, Int.toNat_natCast, List.take_length,
        List.take_of_length_le (by omega)]
  · rw [if_neg hpos]
    have hm0 : m.toNat = 0 ∨ xs.length = 0 := by omega
    rcases hm0 with h | h
    · simp [h]
    · simp [List.eq_nil_of_length_eq_zero h]

/-- For non-negative `N`, `item[N]` builds the slice `slice(N + 1)`, whose
window takes the bounded branch of `take.__call__` with forward bound
`N + 1`. -/
theorem itemSlice_props (N : Int) (hN : 0 ≤ N) :
    itemSlice N = ⟨none, some (N + 1), none⟩ ∧
    fullMaterialize (itemSlice N) = false ∧
    forwardBound (itemSlice N) = (N + 1).toNat := by
  have hne : itemSlice N = ⟨none, some (N + 1), none⟩ := by
    unfold itemSlice
    rw [if_neg (by omega)]
  refine ⟨hne, ?_, ?_⟩
  · rw [hne]
    unfold fullMaterialize pyNegative pyFalsy
    simp only
    rw [decide_eq_false (by omega : ¬ (N + 1 < 0)),
      decide_eq_false (by omega : ¬ (N + 1 = 0))]
    rfl
  · rw [hne]
    rfl

/-- For non-negative `N`, the `itemgetter` cache slot (initially
unassigned) after `take.__call__`: still unassigned when the upstream
yields fewer than `N + 1` values (the comprehension's `StopIteration`
discards the assignment), the pulled prefix otherwise. -/
theorem itemSlot_eq (N : Int) (hN : 0 ≤ N) (xs : List α) :
    takeSlot (itemSlice N) none xs =
      if (N + 1).toNat ≤ xs.length then some (xs.take (N + 1).toNat)
      else none := by
  obtain ⟨-, hfull, hbound⟩ := itemSlice_props N hN
  unfold takeSlot
  rw [hfull]
  simp only [Bool.false_eq_true, if_false, hbound, boundedPull_fromList,
    List.drop_zero]

theorem pullMainN_src_j (n : Nat) (t : TeeState α) :
    (pullMainN n t).src = t.src ∧ (pullMainN n t).j = t.j := by
  induction n generalizing t with
  | zero => exact ⟨rfl, rfl⟩
  | succ n ih =>
    have h := ih (pullMain t)
    have hb : (pullMain t).src = t.src ∧ (pullMain t).j = t.j := by
      unfold pullMain
      cases t.src.get? t.i <;> simp
    exact ⟨h.1.trans hb.1, h.2.trans hb.2⟩

end StreamPy

/-! ## Claims. -/

open StreamPy

/-- C1: for every finite source `S` and chains `A`, `B` of map/filter
stages, materializing `S >> A >> B` equals applying `B`'s transform to
`A`'s transform of `S`, evaluated left-to-right: piping through the
concatenated chain equals piping through `A` and then through `B`. -/
theorem C1_pipe_assoc (S : List α) (A B : List (MF α)) :
    pipeMF S (A ++ B) = pipeMF (pipeMF S A) B := by
  unfold pipeMF
  exact List.foldl_append _ _ _ _

/-- C2 counterexample: connecting the eager stage `take(2)`
(slice `(None, 2, None)`) to an upstream Stream over `[1, 2, 3]` pulls two
values from the upstream at connection time and advances its cursor, so the
act of connecting does mutate the upstream and does pull values,
contradicting the claim. -/
theorem C2_counterexample :
    connectPulls (StageK.takeK ⟨none, some 2, none⟩) (⟨[1, 2, 3], 0⟩ : SObj Int) = 2 ∧
    connectUp (StageK.takeK ⟨none, some 2, none⟩) (⟨[1, 2, 3], 0⟩ : SObj Int) ≠
      (⟨[1, 2, 3], 0⟩ : SObj Int) := by
  constructor
  · rfl
  · decide

/-- C2 amended: connecting a lazy functional filter stage (`map` or
`filter`) via `Stream.__pipe__` mutates only the downstream stage's cursor
(set to the transformed sequence) and pulls no value from the upstream,
whose state is left unchanged; eager stages such as `take` instead pull
from the upstream at connection time (see the counterexample). -/
theorem C2_lazy_connect_frame (f : α → α) (p : α → Bool) (u : SObj α) :
    connectUp (StageK.mapK f) u = u ∧
    connectPulls (StageK.mapK f) u = 0 ∧
    downCursor (StageK.mapK f) u = u.remaining.map f ∧
    connectUp (StageK.filterK p) u = u ∧
    connectPulls (StageK.filterK p) u = 0 ∧
    downCursor (StageK.filterK p) u = u.remaining.filter p := by
  refine ⟨?_, rfl, rfl, ?_, rfl, rfl⟩ <;>
    simp [connectUp, connectPulls]

/-- C3: whenever the claim's window conditions hold (neither bound
negative, not both absent, start present or step non-negative, stop present
or step negative — "absent" being Python-falsy, i.e. `None` or `0`, exactly
as the source tests the bounds), `take.__call__` enters the bounded branch
and consumes at most the computed forward bound of upstream elements, for
ANY upstream, infinite ones included — this is the termination guarantee;
in every other case it runs `list(inpipe)`, materializing the full
upstream. -/
theorem C3_take_pull_bound (sl : SliceSpec) :
    (claimCondsC3 sl = true →
      fullMaterialize sl = false ∧
      ∀ f : PyIter α, boundedPullCount f (forwardBound sl) 0 ≤ forwardBound sl) ∧
    (claimCondsC3 sl = false → ∀ xs : List α, takeCache sl xs = xs) := by
  constructor
  · intro h
    have hfull : fullMaterialize sl = false := by
      rw [claimCondsC3_eq_not_full] at h
      cases hf : fullMaterialize sl
      · rfl
      · rw [hf] at h
        exact absurd h (by decide)
    exact ⟨hfull, fun f => boundedPullCount_le f _ 0⟩
  · intro h xs
    have hfull : fullMaterialize sl = true := by
      rw [claimCondsC3_eq_not_full] at h
      cases hf : fullMaterialize sl
      · rw [hf] at h
        exact absurd h (by decide)
      · rfl
    unfold takeCache takeSlot
    rw [hfull]
    rfl

/-- Witness for `C3_take_pull_bound`: the window `take(3)`
(slice `(None, 3, None)`) satisfies the claim conditions and pulls at most
3 elements from the infinite constant upstream, while the all-absent window
`take(None)` fails them and materializes the whole of `[1, 2, 3]`. -/
theorem C3_take_pull_bound_witness :
    (fullMaterialize (⟨none, some 3, none⟩ : SliceSpec) = false ∧
      boundedPullCount (fun _ => some (0 : Nat)) (forwardBound ⟨none, some 3, none⟩) 0 ≤
        forwardBound ⟨none, some 3, none⟩) ∧
    takeCache ⟨none, none, none⟩ [1, 2, 3] = ([1, 2, 3] : List Nat) :=
  ⟨⟨((C3_take_pull_bound (α := Nat) ⟨none, some 3, none⟩).1 (by decide)).1,
    ((C3_take_pull_bound (α := Nat) ⟨none, some 3, none⟩).1 (by decide)).2
      (fun _ => some 0)⟩,
   (C3_take_pull_bound ⟨none, none, none⟩).2 (by decide) [1, 2, 3]⟩

/-- C4 counterexample: the upstream `[0, ..., 9]` yields 10 values, fewer
than the 101 needed for `item[100]`, and the access fails — but with an
AttributeError-kind condition, not the IndexError-kind condition the claim
states: the `StopIteration` raised inside the list comprehension of
`take.__call__` discards the assignment to `self.cache`, `itemgetter`
never initializes that slot, and the read in
`self.cache = self.cache[self.slice]` fails on the unassigned slot. -/
theorem C4_counterexample :
    itemPipe 100 ([0, 1, 2, 3, 4, 5, 6, 7, 8, 9] : List Int) =
      Except.error PyErr.attributeError ∧
    PyErr.attributeError ≠ PyErr.indexError := by
  constructor
  · rfl
  · decide

/-- C4 amended: for non-negative `N`, whenever the upstream yields fewer
than `N + 1` values `item[N]` fails — never silently returning a value at
a different position — but with an AttributeError-kind condition (the
never-assigned cache slot is read after the comprehension's
`StopIteration` discarded the assignment), not an IndexError-kind one;
when at least `N + 1` values are available it returns the value at
position `N` directly, not wrapped as a sequence. -/
theorem C4_item_access (N : Int) (hN : 0 ≤ N) (xs : List α) :
    ((xs.length : Int) < N + 1 →
      itemPipe N xs = Except.error PyErr.attributeError) ∧
    (∀ v, N + 1 ≤ (xs.length : Int) → xs[N.toNat]? = some v →
      itemPipe N xs = Except.ok v) := by
  obtain ⟨hne, -, -⟩ := itemSlice_props N hN
  constructor
  · intro hshort
    unfold itemPipe
    rw [itemSlot_eq N hN, if_neg (by omega)]
  · intro v hlen hv
    have hps : pySlice (xs.take (N + 1).toNat) (itemSlice N) =
        some (xs.take (N + 1).toNat) := by
      rw [hne, pySlice_stopOnly _ _ (by omega), List.take_take, min_self]
    have hgl : (xs.take (N + 1).toNat).getLast? = some v := by
      rw [List.getLast?_eq_getElem?, List.length_take, List.getElem?_take,
        if_pos (by omega), show min (N + 1).toNat xs.length - 1 = N.toNat by omega]
      exact hv
    unfold itemPipe
    rw [itemSlot_eq N hN, if_pos (by omega)]
    simp [hps, hgl]

/-- Witness for `C4_item_access` at `N = 1`: the one-element upstream `[5]`
fails with the AttributeError-kind condition, and the two-element upstream
`[5, 6]` returns the value `6` at position 1. -/
theorem C4_item_access_witness :
    itemPipe 1 ([5] : List Int) = Except.error PyErr.attributeError ∧
    itemPipe 1 ([5, 6] : List Int) = Except.ok 6 :=
  ⟨(C4_item_access 1 (by decide) ([5] : List Int)).1 (by decide),
   (C4_item_access 1 (by decide) ([5, 6] : List Int)).2 6 (by decide) (by decide)⟩

/-- C7: evaluating `reduce.__call__` at the failing input: the combining
function is integer addition, the supplied initial value is `0` (falsy),
and the upstream is `[5, 6]`.  The code's `if self.initval:` treats the
supplied `0` as absent, so the first emitted value is `5` (the first
upstream element), not the supplied initial value `0`. -/
theorem C7_falsy_init_ignored :
    reduceCall intTruthy (· + ·) (some 0) [5, 6] = [5, 11] ∧
    reduceCall intTruthy (· + ·) none [5, 6] = [5, 11] := by
  constructor <;> rfl

/-- C8 counterexample: with combining function integer addition, supplied
(truthy) initial value `1` and the length-1 upstream `[10]`, the scan emits
`[1, 11]`: two values, not one — length is not preserved when a truthy
initial value is supplied. -/
theorem C8_counterexample :
    (reduceCall intTruthy (· + ·) (some 1) [10]).length ≠
      ([(10 : Int)]).length := by
  decide

/-- C8 amended: for a finite upstream of length `n`, the scan emits exactly
`n` values when no initial value is supplied or the supplied value is falsy,
and `n + 1` values when a truthy initial value is supplied. -/
theorem C8_scan_length (tr : α → Bool) (f : α → α → α) (xs : List α) :
    (reduceCall tr f none xs).length = xs.length ∧
    (∀ v, tr v = false → (reduceCall tr f (some v) xs).length = xs.length) ∧
    (∀ v, tr v = true → (reduceCall tr f (some v) xs).length = xs.length + 1) := by
  refine ⟨scanNoInit_length f xs, ?_, ?_⟩
  · intro v hv
    simp [reduceCall, hv, scanNoInit_length]
  · intro v hv
    simp [reduceCall, hv, scanEmit_length]

/-- Witness for `C8_scan_length` at `tr = intTruthy`, `f = (+)`,
`xs = [7]`, discharging the truthiness hypotheses at `v = 0` and `v = 1`. -/
theorem C8_scan_length_witness :
    (reduceCall intTruthy (· + ·) none [7]).length = 1 ∧
    (reduceCall intTruthy (· + ·) (some 0) [7]).length = 1 ∧
    (reduceCall intTruthy (· + ·) (some 1) [7]).length = 2 :=
  ⟨(C8_scan_length intTruthy (· + ·) [7]).1,
   (C8_scan_length intTruthy (· + ·) [7]).2.1 0 (by decide),
   (C8_scan_length intTruthy (· + ·) [7]).2.2 1 (by decide)⟩

/-- C10: after `tee` duplicates a source `xs` into the main line and the
branch, pulling any number `N` of values from one branch leaves the next
value pulled from the other branch unchanged, and exhausting both branches
yields two sequences each equal to the original source. -/
theorem C10_tee_independence (xs : List α) (N : Nat) :
    nextMain (pullBranchN N (teeOf xs)) = nextMain (teeOf xs) ∧
    nextBranch (pullMainN N (teeOf xs)) = nextBranch (teeOf xs) ∧
    collectMain (teeOf xs) = xs ∧
    collectBranch (teeOf xs) = xs := by
  refine ⟨?_, ?_, rfl, rfl⟩
  · have h := pullBranchN_src_i N (teeOf xs)
    unfold nextMain
    rw [h.1, h.2]
  · have h := pullMainN_src_j N (teeOf xs)
    unfold nextBranch
    rw [h.1, h.2]

/-- C5 counterexample: `takei` over the infinite main sequence
`fun _ => some 0` (which never exhausts: `Total` holds) with the finite
index stream `[0]` DOES terminate its output on its own: after yielding
the element at index 0, the pull from the exhausted index stream raises
`StopIteration` inside the generator and ends the output (terminated flag
`true`), even though the main sequence is infinite — contradicting the
claim that exhaustion of the index stream never terminates the output. -/
theorem C5_counterexample :
    takeiCall [(0 : Int)] (fun _ => some (0 : Nat)) 2 = ([0], true) ∧
    Total (fun _ => some (0 : Nat)) := by
  constructor
  · rfl
  · intro n
    rfl

/-- C5 amended: the exclusion selector `dropi` terminates only when the
main input exhausts — over a never-exhausting main input it never reaches
the terminated state, and once its index stream is exhausted it emits
every remaining main element unconditionally until main exhaustion; the
selection selector `takei`, by contrast, terminates its output when its
index stream exhausts: over any infinite main input it reaches the
terminated state within bounded fuel. -/
theorem C5_index_exhaustion :
    (∀ (f : PyIter α), Total f →
      ∀ (fuel : Nat) (old idx : Int) (exh : Bool) (rest : List Int) (c : Nat),
        (dropiLoop f fuel old idx exh rest c).2 = false) ∧
    (∀ (f : PyIter α) (n c : Nat) (old : Int),
      (∀ k, k < n → (f (c + k)).isSome) → f (c + n) = none →
      dropiLoop f (n + 1) old (-1) true [] c =
        ((List.range n).filterMap (fun k => f (c + k)), true)) ∧
    (∀ (ds : List Int) (f : PyIter α), Total f →
      (takeiCall ds f (takeiFuel ds)).2 = true) :=
  ⟨fun f hf => dropiLoop_not_done f hf,
   fun f => dropiLoop_passthrough f,
   fun ds f hf => takeiCall_done ds f hf⟩

/-- Witness for `C5_index_exhaustion`: over the infinite main input
`fun _ => some 0`, `dropi` with exhausted index state is still running
after 3 loop iterations; from the exhausted index state over the
two-element main input `[7, 8]` it passes both elements through and
terminates; and `takei` with index stream `[0]` reaches the terminated
state. -/
theorem C5_index_exhaustion_witness :
    (dropiLoop (fun _ => some (0 : Nat)) 3 (-1) (-1) true [] 0).2 = false ∧
    dropiLoop (fromList [(7 : Nat), 8]) 3 (-1) (-1) true [] 0 = ([7, 8], true) ∧
    (takeiCall [(0 : Int)] (fun _ => some (0 : Nat)) (takeiFuel [0])).2 = true :=
  ⟨(C5_index_exhaustion (α := Nat)).1 (fun _ => some 0) (fun _ => rfl)
      3 (-1) (-1) true [] 0,
   by
    have h := (C5_index_exhaustion (α := Nat)).2.1 (fromList [7, 8]) 2 0 (-1)
      (by decide) (by rfl)
    exact h.trans (by decide),
   (C5_index_exhaustion (α := Nat)).2.2 [0] (fun _ => some 0) (fun _ => rfl)⟩

/-- C6: running the exclusion selector `dropi([-2, 3, 7, 7, 6, 9])` over
the materialized sequence `0..10` yields exactly
`[0, 1, 2, 4, 5, 6, 8, 10]` and terminates with the main sequence: the
negative index `-2`, the duplicate `7` and the non-increasing `6` are
skipped without excluding any element. -/
theorem C6_dropi_example :
    dropiCall [-2, 3, 7, 7, 6, 9]
        (fromList ([0, 1, 2, 3, 4, 5, 6, 7, 8, 9, 10] : List Int)) 12 =
      ([0, 1, 2, 4, 5, 6, 8, 10], true) := by
  decide

/-- C9: flatten is idempotent — `flatten(flatten(x)) = flatten(x)` for any
finite nested structure — and never descends into atomic text values even
when they are nested inside iterable containers: the output is the
spec-side depth-first flattening `specFlatten`, which emits each text
value whole (`specFlatten (.str s) = [.str s]`), never character by
character. -/
theorem C9_flatten_idempotent (xs : List Elem) :
    flattenCall (flattenCall xs) = flattenCall xs ∧
    flattenCall xs = (xs.map specFlatten).flatten := by
  have hchar : ∀ ys : List Elem, flattenCall ys = (ys.map specFlatten).flatten := by
    intro ys
    have h := flattenGo_eq ys []
    simpa [flattenCall] using h
  refine ⟨?_, hchar xs⟩
  rw [hchar, hchar]
  apply flatten_fixed
  intro x hx
  rw [List.mem_flatten] at hx
  obtain ⟨l, hl, hxl⟩ := hx
  rw [List.mem_map] at hl
  obtain ⟨y, _, rfl⟩ := hl
  exact specFlatten_not_descend y x hxl
